import Mathlib

/-!
Shallow embedding of the twscrape account-leasing and proxy-failover
subsystem (`twscrape/accounts_pool.py`, `twscrape/proxies.py`, backed by the
Postgres schema of `twscrape/db_models.py` and the migrations).

Modelling conventions:
* Timestamps (`now()`, `timestamptz` values, `to_timestamp` arguments) are
  natural numbers counting seconds; `interval '15 minutes'` is `900`.
* A `jsonb` object is an association list with distinct keys; `jsonb_set`
  with `create_missing = true` is `jset`, the `->>` operator is `jget`, and
  the `-` (delete key) operator is `jdel`.
* The `username` column has type `CITEXT` (migration `a69c2642f706`), so all
  username comparisons and the `ORDER BY username` ordering are
  case-insensitive: they act on `lowerKey`, the list of lowercased
  characters.  Lowercasing is modelled for ASCII, which is what `CITEXT`
  does for ASCII usernames.
* Each SQL statement is one atomic transition of the store, which is the
  guarantee the persistence layer provides; an `async` Python function that
  issues several statements is a composition of such transitions.
-/

/-- Timestamps in seconds (model of `timestamptz` / `now()`). -/
abbrev Time := Nat

/-- Lowercase an ASCII character, the way `CITEXT` folds case for ASCII. -/
def lowerChar (c : Char) : Char :=
  if 'A' ≤ c && c ≤ 'Z' then Char.ofNat (c.toNat + 32) else c

/-- Case-folded key of a username, used for `CITEXT` equality and ordering. -/
def lowerKey (s : String) : List Char :=
  s.data.map lowerChar

/-- Equality of two `CITEXT` usernames (case-insensitive). -/
def uEq (a b : String) : Bool :=
  lowerKey a == lowerKey b

/-- Read a key of a `jsonb` object: the `->>` operator. -/
def jget {α : Type} : List (String × α) → String → Option α
  | [], _ => none
  | p :: rest, k => if p.1 = k then some p.2 else jget rest k

/-- Set a key of a `jsonb` object: `jsonb_set(m, k, v, true)`. -/
def jset {α : Type} : List (String × α) → String → α → List (String × α)
  | [], k, v => [(k, v)]
  | p :: rest, k, v => if p.1 = k then (k, v) :: rest else p :: jset rest k v

/-- Delete a key of a `jsonb` object: the `locks - :queue_name` operator. -/
def jdel {α : Type} : List (String × α) → String → List (String × α)
  | [], _ => []
  | p :: rest, k => if p.1 = k then jdel rest k else p :: jdel rest k

/-- Account row, after the three proxy migrations: the fields of the
`accounts` table (`db_models.py` plus the `proxy_id` column added by
migration `20250604`) as carried by the `Account` dataclass of
`account.py` (whose `_tx` field is stored in the `tx` column). -/
structure Account where
  username : String
  password : String
  email : String
  email_password : String
  user_agent : String
  active : Bool
  locks : List (String × Time)
  stats : List (String × Nat)
  headers : List (String × String)
  cookies : List (String × String)
  mfa_code : Option String
  proxy : Option String
  proxy_id : Option Nat
  error_msg : Option String
  last_used : Option Time
  tx : Option String
deriving DecidableEq, Repr

/-- Lease window: `interval '15 minutes'` in seconds. -/
def LEASE_TTL : Time := 15 * 60

/-- Lock clause of the eligibility condition of `get_for_queue`:
`locks->>'{queue}' IS NULL OR (locks->>'{queue}')::timestamptz < now()`. -/
def lockFree (a : Account) (q : String) (now : Time) : Bool :=
  match jget a.locks q with
  | none => true
  | some t => decide (t < now)

/-- Full eligibility condition of `get_for_queue`: `active = true AND` the
lock for the queue is absent or expired. -/
def eligible (a : Account) (q : String) (now : Time) : Bool :=
  a.active && lockFree a q now

/-- Effect of `_get_and_lock` on the selected row: `locks = jsonb_set(locks,
'{queue}', now() + interval '15 minutes', true), last_used = now()`. -/
def lockAccount (a : Account) (q : String) (now : Time) : Account :=
  { a with locks := jset a.locks q (now + LEASE_TTL), last_used := some now }

/-- Earlier of two rows in `ORDER BY username` order (`username` is a
`CITEXT` column, hence the case-folded comparison); the first argument is
the earlier row of the table and wins ties. -/
def minAcc (a b : Account) : Account :=
  if lowerKey b.username < lowerKey a.username then b else a

/-- First row of `ORDER BY username LIMIT 1` (the configured `_order_by` is
`username`). -/
def chooseMin : List Account → Option Account
  | [] => none
  | a :: rest =>
    match chooseMin rest with
    | none => some a
    | some b => some (minAcc a b)

/-- Subquery of `get_for_queue`: the eligible account that is first in
`ORDER BY username LIMIT 1` order. -/
def selectEligible (db : List Account) (q : String) (now : Time) : Option Account :=
  chooseMin (db.filter (fun a => eligible a q now))

/-- Single atomic statement issued by `get_for_queue` via `_get_and_lock`:
`UPDATE accounts SET locks = ..., last_used = now() WHERE username =
(SELECT username FROM accounts WHERE active AND lock absent-or-expired
ORDER BY username LIMIT 1) RETURNING *`.  Returns the updated row (if any)
and the new table. -/
def get_for_queue (db : List Account) (q : String) (now : Time) :
    Option Account × List Account :=
  match selectEligible db q now with
  | none => (none, db)
  | some a =>
    (some (lockAccount a q now),
     db.map (fun b => if uEq b.username a.username then lockAccount b q now else b))

/-- Sequential trace of atomic `get_for_queue` statements at the given
times, as the store serialises them; returns the row each call received. -/
def run_leases (q : String) : List Account → List Time → List (Option Account)
  | _, [] => []
  | db, t :: ts =>
    (get_for_queue db q t).1 :: run_leases q (get_for_queue db q t).2 ts

/-- Minimum of a list of timestamps (model of `ORDER BY lock_until ASC
LIMIT 1`). -/
def minTime? : List Time → Option Time
  | [] => none
  | t :: ts =>
    match minTime? ts with
    | none => some t
    | some m => some (min t m)

/-- Raw result of `next_available_at`: the earliest `locks->>'{queue}'`
among active accounts that have a lock for the queue, `none` when no such
row exists (the code then formats the timestamp, which is irrelevant
here). -/
def next_available_at (db : List Account) (q : String) : Option Time :=
  minTime? (db.filterMap (fun a => if a.active then jget a.locks q else none))

/-- Outcome of `get_for_queue_or_wait`. -/
inductive LeaseOutcome where
  /-- an account row was handed to the caller -/
  | got (a : Account)
  /-- returned `None`: no active accounts, nothing to wait for -/
  | empty
  /-- raised `NoAccountError` (fail-fast policy) -/
  | raised
  /-- still polling when the modelling fuel ran out -/
  | outOfFuel
deriving DecidableEq, Repr

/-- Loop body of `get_for_queue_or_wait`: poll `get_for_queue`; on failure
either raise (fail-fast flag), or — only while the wait message has not yet
been shown — check `next_available_at` and return `None` when it is `NULL`
(no active accounts), otherwise sleep 5 seconds and retry.  `raiseFlag` is
`_raise_when_no_account or TWS_RAISE_WHEN_NO_ACCOUNT`; the store is
unchanged by a failed poll, so it is threaded unchanged. -/
def wait_loop (q : String) (raiseFlag : Bool) :
    Nat → Bool → List Account → Time → LeaseOutcome
  | 0, _, _, _ => .outOfFuel
  | fuel + 1, msgShown, db, now =>
    match (get_for_queue db q now).1 with
    | some a => .got a
    | none =>
      if raiseFlag then .raised
      else if msgShown then wait_loop q raiseFlag fuel true db (now + 5)
      else
        match next_available_at db q with
        | none => .empty
        | some _ => wait_loop q raiseFlag fuel true db (now + 5)

/-- Entry point `get_for_queue_or_wait(queue)`: the polling loop started
with the wait message not yet shown. -/
def get_for_queue_or_wait (q : String) (raiseFlag : Bool) (fuel : Nat)
    (db : List Account) (now : Time) : LeaseOutcome :=
  wait_loop q raiseFlag fuel false db now

/-- Effect of `add_account`: `SELECT * FROM accounts WHERE username =
:username` (a `CITEXT` comparison, hence case-insensitive); when a row
exists the function logs a warning and returns without touching the store;
otherwise it builds a fresh `Account` (inactive, empty `locks`, `stats`,
`headers`; active immediately when the supplied cookies contain `ct0`) and
inserts it.  `uaGen` stands for the `UserAgent().safari` value generated
when no user agent is supplied; the side call to `proxies.ensure` touches
only the proxies table and is modelled separately. -/
def add_account (db : List Account) (username password email email_password : String)
    (user_agent : Option String) (proxy : Option String)
    (cookies : List (String × String)) (mfa_code : Option String)
    (uaGen : String) : List Account :=
  match db.find? (fun a => uEq a.username username) with
  | some _ => db
  | none =>
    db ++ [{ username := username
             password := password
             email := email
             email_password := email_password
             user_agent := user_agent.getD uaGen
             active := (jget cookies "ct0").isSome
             locks := []
             stats := []
             headers := []
             cookies := cookies
             mfa_code := mfa_code
             proxy := proxy
             proxy_id := none
             error_msg := none
             last_used := none
             tx := none }]

/-- Single statement of `lock_until`: set `locks->'{queue}'` to the given
unlock time, set `stats->'{queue}'` to its previous value (`0` when the key
is absent, per `COALESCE`) plus `req_count`, and stamp `last_used = now()`,
on every row whose `CITEXT` username matches.  `req_count` is a number of
performed requests, hence a natural number. -/
def lock_until (db : List Account) (username q : String) (unlock_at : Time)
    (req_count : Nat) (now : Time) : List Account :=
  db.map fun a =>
    if uEq a.username username then
      { a with
        locks := jset a.locks q unlock_at
        stats := jset a.stats q ((jget a.stats q).getD 0 + req_count)
        last_used := some now }
    else a

/-- First statement of `unlock`: remove the queue key from `locks`
(`locks = locks - :queue_name`) and stamp `last_used = now()`. -/
def unlock_step1 (db : List Account) (username q : String) (now : Time) :
    List Account :=
  db.map fun a =>
    if uEq a.username username then
      { a with locks := jdel a.locks q, last_used := some now }
    else a

/-- Second statement of `unlock`, issued only when `req_count > 0`: add
`req_count` to `stats->'{queue}'` (absent key counted as `0`). -/
def unlock_step2 (db : List Account) (username q : String) (req_count : Nat) :
    List Account :=
  db.map fun a =>
    if uEq a.username username then
      { a with stats := jset a.stats q ((jget a.stats q).getD 0 + req_count) }
    else a

/-- Whole of `unlock(username, queue, req_count)`: the lock-removal
statement, then the stats statement when `req_count > 0`. -/
def unlock (db : List Account) (username q : String) (req_count : Nat)
    (now : Time) : List Account :=
  let db1 := unlock_step1 db username q now
  if req_count > 0 then unlock_step2 db1 username q req_count else db1

namespace AccountsPool

/-- Lookup of `AccountsPool.get(username)`: raises `ValueError` when no row
matches, modelled as `Except.error` with the message of the `ValueError`. -/
def get (db : List Account) (username : String) : Except String Account :=
  match db.find? (fun a => uEq a.username username) with
  | none => .error ("Account " ++ username ++ " not found")
  | some a => .ok a

/-- Lookup of `AccountsPool.get_account(username)`: same query, but a
missing row yields `None`. -/
def get_account (db : List Account) (username : String) : Option Account :=
  db.find? (fun a => uEq a.username username)

end AccountsPool

/-! Validator for the textual `jsonb` object syntax, needed because
`reset_locks` interpolates a jsonb literal into its SQL.  The grammar
covered is flat objects — optional spaces, string keys without escapes, and
string or integer values — which subsumes every jsonb literal occurring in
the SQL strings of `accounts_pool.py`.  Postgres raises `invalid input
syntax for type json` on any text rejected by its parser. -/

/-- Opening brace character (written numerically). -/
def braceL : Char := Char.ofNat 123

/-- Closing brace character (written numerically). -/
def braceR : Char := Char.ofNat 125

/-- Double-quote character. -/
def dq : Char := Char.ofNat 34

/-- States of the flat-object `jsonb` syntax checker. -/
inductive JState where
  /-- before the opening brace -/
  | start
  /-- just after the opening brace: expect a key or the closing brace -/
  | afterOpen
  /-- inside a quoted key -/
  | key
  /-- after a key: expect a colon -/
  | afterKey
  /-- expect a value -/
  | value
  /-- inside a quoted string value -/
  | strVal
  /-- inside an integer value -/
  | numVal
  /-- after a value: expect a comma or the closing brace -/
  | afterVal
  /-- after a comma: expect the next key -/
  | nextKey
  /-- after the closing brace -/
  | done
  /-- syntax error -/
  | bad
deriving DecidableEq, Repr

/-- Transition of the flat-object `jsonb` syntax checker on one character. -/
def jstep (s : JState) (c : Char) : JState :=
  match s with
  | .start => if c = ' ' then .start else if c = braceL then .afterOpen else .bad
  | .afterOpen =>
    if c = ' ' then .afterOpen
    else if c = braceR then .done
    else if c = dq then .key
    else .bad
  | .key => if c = dq then .afterKey else .key
  | .afterKey => if c = ' ' then .afterKey else if c = ':' then .value else .bad
  | .value =>
    if c = ' ' then .value
    else if c = dq then .strVal
    else if c.isDigit || c = '-' then .numVal
    else .bad
  | .strVal => if c = dq then .afterVal else .strVal
  | .numVal =>
    if c.isDigit then .numVal
    else if c = ' ' then .afterVal
    else if c = ',' then .nextKey
    else if c = braceR then .done
    else .bad
  | .afterVal =>
    if c = ' ' then .afterVal
    else if c = ',' then .nextKey
    else if c = braceR then .done
    else .bad
  | .nextKey => if c = ' ' then .nextKey else if c = dq then .key else .bad
  | .done => if c = ' ' then .done else .bad
  | .bad => .bad

/-- Whether a string is accepted by Postgres as a (flat) `jsonb` object
literal. -/
def valid_jsonb_object (s : String) : Bool :=
  s.data.foldl jstep JState.start == JState.done

/-- Text that `reset_locks` sends as its jsonb literal.  The Python source
is `"UPDATE accounts SET locks = '\x7b\x7b\x7d\x7d'::jsonb"` — a plain
string, not an f-string, so the doubled braces are NOT collapsed and the
four characters between the quotes go to Postgres verbatim.  (Compare
`relogin`, whose f-string turns the same doubled braces into `\x7b\x7d`.) -/
def reset_locks_literal : String := "\x7b\x7b\x7d\x7d"

/-- Statement of `reset_locks`: `UPDATE accounts SET locks = L::jsonb` for
the literal text `L` above.  When the literal parses as a jsonb object the
update empties every row's `locks`; when it does not, Postgres rejects the
statement and no row changes, modelled as `Except.error`. -/
def reset_locks (db : List Account) : Except String (List Account) :=
  if valid_jsonb_object reset_locks_literal then
    .ok (db.map fun a => { a with locks := [] })
  else
    .error "invalid input syntax for type json"

/-- Proxy row of the `proxies` table (`db_models.py`, migration
`20250602`). -/
structure ProxyRow where
  id : Nat
  url : String
  active : Bool
  fail_count : Nat
  last_failed : Option Time
deriving DecidableEq, Repr

/-- Statement of `proxies.mark_failed(proxy_id)`: set the row inactive,
increment `fail_count` and stamp `last_failed`. -/
def mark_failed (ps : List ProxyRow) (pid : Nat) (ts : Time) : List ProxyRow :=
  ps.map fun p =>
    if p.id = pid then
      { p with active := false, fail_count := p.fail_count + 1, last_failed := some ts }
    else p

/-- Query of `proxies.get_active()`: `SELECT id, url FROM proxies WHERE
active = true ORDER BY random() LIMIT 1`.  The uniformly-random pick among
active rows is modelled by the deterministic first active row; every
theorem below uses only that the result is an active row. -/
def get_active (ps : List ProxyRow) : Option (Nat × String) :=
  (ps.find? (fun p => p.active)).map (fun p => (p.id, p.url))

/-- Query of `proxies.get_url(proxy_id)`. -/
def get_url (ps : List ProxyRow) (pid : Nat) : Option String :=
  (ps.find? (fun p => p.id = pid)).map (fun p => p.url)

/-- Outcome of issuing one transport attempt through a given proxy url. -/
inductive AttemptOutcome where
  /-- proxy-level transport failure (connection refused, proxy auth, ...) -/
  | proxyError
  /-- successful response with the given payload -/
  | success (payload : String)
deriving DecidableEq, Repr

/-- Modelled from the spec: the repository ships only the test of
`twscrape/queue_client.py` (`tests/test_proxy_rotation.py`), not the module
itself, so the Queue Client request path is taken from spec §4.3 steps 2–4:
resolve the egress proxy (the account's own `proxy_id` if set and
resolvable, else `get_active`); issue the request; on a proxy-level
failure, `mark_failed` the in-use proxy, select a new active proxy, persist
the new `proxy_id` onto the account, and retry the same request exactly
once, surfacing the failure when no alternate proxy exists.  `attempt`
gives the transport outcome of the request through a given proxy url;
the result is the payload plus the final proxies table and account row,
or `none` when the request could not be completed. -/
def execute_with_rotation (ps : List ProxyRow) (acc : Account)
    (attempt : String → AttemptOutcome) (now : Time) :
    Option (String × List ProxyRow × Account) :=
  match (match acc.proxy_id with
         | some pid =>
           match get_url ps pid with
           | some url => some (pid, url)
           | none => get_active ps
         | none => get_active ps) with
  | none => none
  | some (pid, url) =>
    match attempt url with
    | .success payload => some (payload, ps, acc)
    | .proxyError =>
      let ps1 := mark_failed ps pid now
      match get_active ps1 with
      | none => none
      | some (pid2, url2) =>
        match attempt url2 with
        | .success payload => some (payload, ps1, { acc with proxy_id := some pid2 })
        | .proxyError => none

/-- Invariant carried through a trace of leases: every row whose `CITEXT`
username matches `u` holds a lock for queue `q` that expires no earlier
than `deadline`. -/
def lockedBeyond (db : List Account) (u q : String) (deadline : Time) : Prop :=
  ∀ b ∈ db, uEq b.username u = true →
    ∃ L, jget b.locks q = some L ∧ deadline ≤ L

/-- Concrete account used to evaluate the theorems on closed inputs. -/
def mkAcct (u : String) (act : Bool) (lk : List (String × Time)) : Account :=
  { username := u
    password := "pw"
    email := "em"
    email_password := "emp"
    user_agent := "ua"
    active := act
    locks := lk
    stats := []
    headers := []
    cookies := []
    mfa_code := none
    proxy := none
    proxy_id := none
    error_msg := none
    last_used := none
    tx := none }

/-- Concrete two-account store for evaluating the lease theorems. -/
def dbW : List Account := [mkAcct "u1" true [], mkAcct "u2" true []]

/-- Row returned by `get_for_queue dbW "q" 100`: `u1` locked until 1000. -/
def aW : Account := { mkAcct "u1" true [("q", 1000)] with last_used := some 100 }

/-- Store after that first lease. -/
def db1W : List Account := [aW, mkAcct "u2" true []]

/-- Row returned by the second lease at time 200: `u2` locked until 1100. -/
def bW : Account := { mkAcct "u2" true [("q", 1100)] with last_used := some 200 }

/-- Concrete proxies table for evaluating the rotation theorem. -/
def psW : List ProxyRow :=
  [{ id := 1, url := "http://bad:8888", active := true, fail_count := 0, last_failed := none },
   { id := 2, url := "http://working:8888", active := true, fail_count := 0, last_failed := none },
   { id := 3, url := "http://backup:8888", active := true, fail_count := 0, last_failed := none }]

/-- Concrete transport behaviour: the bad proxy fails, every other succeeds. -/
def attemptW : String → AttemptOutcome := fun url =>
  if url = "http://bad:8888" then .proxyError else .success "ok"

example : uEq "UsEr" "user" = true := by decide
example : uEq "alice" "bob" = false := by decide
example : jget (jset ([] : List (String × Nat)) "a" 3) "a" = some 3 := by decide
example : valid_jsonb_object "\x7b\x7d" = true := by decide
example : valid_jsonb_object reset_locks_literal = false := by decide
example : valid_jsonb_object " \x7b \x22a\x22: 12, \x22b\x22: \x22x\x22 \x7d " = true := by decide
example :
    (get_for_queue [mkAcct "u1" true []] "q" 100).1 =
      some { mkAcct "u1" true [("q", 1000)] with last_used := some 100 } := by decide

theorem uEq_refl (a : String) : uEq a a = true := by
  simp [uEq]

theorem uEq_trans {a b c : String} (h1 : uEq a b = true) (h2 : uEq b c = true) :
    uEq a c = true := by
  simp [uEq] at *
  exact h1.trans h2

theorem uEq_symm {a b : String} (h : uEq a b = true) : uEq b a = true := by
  simp [uEq] at *
  exact h.symm

theorem jget_jset_self {α : Type} (m : List (String × α)) (k : String) (v : α) :
    jget (jset m k v) k = some v := by
  induction m with
  | nil => simp [jget, jset]
  | cons p rest ih =>
    by_cases h : p.1 = k
    · simp [jget, jset, h]
    · simp [jget, jset, h, ih]

theorem jget_jset_ne {α : Type} (m : List (String × α)) (k k' : String) (v : α)
    (h : k' ≠ k) : jget (jset m k v) k' = jget m k' := by
  induction m with
  | nil => simp [jget, jset, Ne.symm h]
  | cons p rest ih =>
    by_cases hp : p.1 = k
    · have hp' : p.1 ≠ k' := by rw [hp]; exact Ne.symm h
      simp [jget, jset, hp, hp', Ne.symm h]
    · by_cases hp' : p.1 = k'
      · simp [jget, jset, hp, hp', h]
      · simp [jget, jset, hp, hp', ih]

theorem jget_jdel_self {α : Type} (m : List (String × α)) (k : String) :
    jget (jdel m k) k = none := by
  induction m with
  | nil => simp [jget, jdel]
  | cons p rest ih =>
    by_cases h : p.1 = k
    · simp [jdel, h, ih]
    · simp [jget, jdel, h, ih]

theorem jget_jdel_ne {α : Type} (m : List (String × α)) (k k' : String)
    (h : k' ≠ k) : jget (jdel m k) k' = jget m k' := by
  induction m with
  | nil => simp [jget, jdel]
  | cons p rest ih =>
    by_cases hp : p.1 = k
    · have hp' : p.1 ≠ k' := by rw [hp]; exact Ne.symm h
      simp [jget, jdel, hp, hp', Ne.symm h, ih]
    · by_cases hp' : p.1 = k'
      · simp [jget, jdel, hp, hp', h]
      · simp [jget, jdel, hp, hp', ih]

theorem minAcc_cases (a b : Account) : minAcc a b = a ∨ minAcc a b = b := by
  unfold minAcc
  split
  · exact Or.inr rfl
  · exact Or.inl rfl

theorem minAcc_le_left (a b : Account) :
    lowerKey (minAcc a b).username ≤ lowerKey a.username := by
  unfold minAcc
  split
  · next hlt => exact le_of_lt hlt
  · exact le_refl _

theorem minAcc_le_right (a b : Account) :
    lowerKey (minAcc a b).username ≤ lowerKey b.username := by
  unfold minAcc
  split
  · exact le_refl _
  · next hnlt => exact le_of_not_lt hnlt

theorem chooseMin_eq_none {l : List Account} : chooseMin l = none ↔ l = [] := by
  cases l with
  | nil => simp [chooseMin]
  | cons a rest =>
    simp only [chooseMin]
    cases hr : chooseMin rest with
    | none => simp
    | some b => simp

theorem chooseMin_mem : ∀ {l : List Account} {a : Account},
    chooseMin l = some a → a ∈ l := by
  intro l
  induction l with
  | nil => intro a h; simp [chooseMin] at h
  | cons x rest ih =>
    intro a h
    simp only [chooseMin] at h
    cases hr : chooseMin rest with
    | none =>
      rw [hr] at h
      have hx : x = a := Option.some_inj.mp h
      exact hx ▸ List.mem_cons_self x rest
    | some b =>
      rw [hr] at h
      have hm : minAcc x b = a := Option.some_inj.mp h
      rcases minAcc_cases x b with hc | hc
      · rw [hc] at hm
        exact hm ▸ List.mem_cons_self x rest
      · rw [hc] at hm
        exact hm ▸ List.mem_cons_of_mem x (ih hr)

theorem chooseMin_min : ∀ {l : List Account} {a : Account},
    chooseMin l = some a →
      ∀ b ∈ l, lowerKey a.username ≤ lowerKey b.username := by
  intro l
  induction l with
  | nil => intro a h; simp [chooseMin] at h
  | cons x rest ih =>
    intro a h c hc
    simp only [chooseMin] at h
    cases hr : chooseMin rest with
    | none =>
      rw [hr] at h
      have hx : x = a := Option.some_inj.mp h
      have hrest : rest = [] := chooseMin_eq_none.mp hr
      subst hrest
      rcases List.mem_cons.mp hc with hcx | hcr
      · exact le_of_eq (congrArg (fun z => lowerKey z.username) (hx ▸ hcx.symm))
      · exact absurd hcr (List.not_mem_nil c)
    | some b =>
      rw [hr] at h
      have hm : minAcc x b = a := Option.some_inj.mp h
      rcases List.mem_cons.mp hc with hcx | hcr
      · subst hcx
        exact hm ▸ minAcc_le_left c b
      · calc lowerKey a.username
            ≤ lowerKey b.username := hm ▸ minAcc_le_right x b
          _ ≤ lowerKey c.username := ih hr c hcr

theorem selectEligible_eq_none (db : List Account) (q : String) (now : Time) :
    selectEligible db q now = none ↔ ∀ a ∈ db, eligible a q now = false := by
  unfold selectEligible
  rw [chooseMin_eq_none, List.filter_eq_nil_iff]
  simp

theorem selectEligible_mem {db : List Account} {q : String} {now : Time}
    {a : Account} (h : selectEligible db q now = some a) :
    a ∈ db ∧ eligible a q now = true := by
  unfold selectEligible at h
  have hm := chooseMin_mem h
  exact ⟨(List.mem_filter.mp hm).1, (List.mem_filter.mp hm).2⟩

theorem selectEligible_min {db : List Account} {q : String} {now : Time}
    {a : Account} (h : selectEligible db q now = some a) :
    ∀ b ∈ db, eligible b q now = true →
      lowerKey a.username ≤ lowerKey b.username := by
  unfold selectEligible at h
  intro b hb he
  exact chooseMin_min h b (List.mem_filter.mpr ⟨hb, he⟩)

/-- C2: `get_for_queue` returns empty exactly when no stored account is
eligible — active with the lock for the queue absent or strictly before
`now` — and otherwise returns one eligible account, the first in the
configured `ORDER BY username` (case-insensitive) order, whose lock for
the queue is set to `now + LEASE_TTL` (15 minutes) and whose `last_used`
is updated in the returned row. -/
theorem C2_get_for_queue_correct (db : List Account) (q : String) (now : Time) :
    ((get_for_queue db q now).1 = none ↔ ∀ a ∈ db, eligible a q now = false) ∧
    (∀ r, (get_for_queue db q now).1 = some r →
      ∃ a ∈ db, eligible a q now = true ∧
        (∀ b ∈ db, eligible b q now = true →
          lowerKey a.username ≤ lowerKey b.username) ∧
        r = lockAccount a q now ∧
        jget r.locks q = some (now + LEASE_TTL) ∧
        r.last_used = some now) := by
  constructor
  · unfold get_for_queue
    cases hs : selectEligible db q now with
    | none =>
      simpa using (selectEligible_eq_none db q now).mp hs
    | some a =>
      constructor
      · intro hcontra; exact absurd hcontra (by simp)
      · intro hall
        exact absurd hs (by rw [(selectEligible_eq_none db q now).mpr hall]; simp)
  · intro r hr
    unfold get_for_queue at hr
    cases hs : selectEligible db q now with
    | none => rw [hs] at hr; exact absurd hr (by simp)
    | some a =>
      rw [hs] at hr
      have hra : r = lockAccount a q now := (Option.some_inj.mp hr).symm
      obtain ⟨hmem, helig⟩ := selectEligible_mem hs
      refine ⟨a, hmem, helig, selectEligible_min hs, hra, ?_, ?_⟩
      · rw [hra]; exact jget_jset_self a.locks q (now + LEASE_TTL)
      · rw [hra]; rfl

theorem lease_step_preserves (db : List Account) (q u : String) (d t : Time)
    (hinv : lockedBeyond db u q d) (ht : t ≤ d) :
    (∀ b, (get_for_queue db q t).1 = some b → uEq b.username u = false) ∧
    lockedBeyond (get_for_queue db q t).2 u q d := by
  unfold get_for_queue
  cases hs : selectEligible db q t with
  | none =>
    refine ⟨fun b hb => absurd hb (by simp), ?_⟩
    simpa using hinv
  | some a =>
    obtain ⟨hmem, helig⟩ := selectEligible_mem hs
    have hne : uEq a.username u = false := by
      cases hau : uEq a.username u with
      | false => rfl
      | true =>
        obtain ⟨L, hL, hdL⟩ := hinv a hmem hau
        have hboth : a.active = true ∧ lockFree a q t = true := by
          simpa [eligible] using helig
        have hfree : lockFree a q t = true := hboth.2
        unfold lockFree at hfree
        rw [hL] at hfree
        have hLt : L < t := of_decide_eq_true hfree
        exact absurd (lt_of_lt_of_le hLt (le_trans ht hdL)) (lt_irrefl L)
    constructor
    · intro b hb
      have hb' : lockAccount a q t = b := Option.some_inj.mp hb
      rw [← hb']
      exact hne
    · intro b hbmem hbu
      obtain ⟨c, hc, hcb⟩ := List.mem_map.mp hbmem
      by_cases hca : uEq c.username a.username = true
      · rw [if_pos hca] at hcb
        have hcu : uEq c.username u = true := by rw [← hcb] at hbu; exact hbu
        have hcontra : uEq a.username u = true := uEq_trans (uEq_symm hca) hcu
        rw [hcontra] at hne
        exact absurd hne (by decide)
      · rw [if_neg hca] at hcb
        subst hcb
        exact hinv c hc hbu

theorem run_leases_avoids (q u : String) (d : Time) :
    ∀ (ts : List Time) (db : List Account), lockedBeyond db u q d →
      (∀ t ∈ ts, t ≤ d) →
      ∀ r ∈ run_leases q db ts, ∀ b, r = some b → uEq b.username u = false := by
  intro ts
  induction ts with
  | nil => intro db _ _ r hr; simp [run_leases] at hr
  | cons t ts ih =>
    intro db hinv hts r hr b hb
    simp only [run_leases] at hr
    rcases List.mem_cons.mp hr with h1 | h2
    · subst h1
      exact (lease_step_preserves db q u d t hinv
        (hts t (List.mem_cons_self t ts))).1 b hb
    · exact ih (get_for_queue db q t).2
        ((lease_step_preserves db q u d t hinv (hts t (List.mem_cons_self t ts))).2)
        (fun t2 ht2 => hts t2 (List.mem_cons_of_mem t ht2)) r h2 b hb

/-- C1: leasing is a single atomic statement against the store (the model
of `_get_and_lock`, an `UPDATE ... WHERE username = (subquery) RETURNING *`
issued as one transition, with no separable select-then-update), so over
any serialisation of concurrent `get_for_queue` calls for the same queue,
once one call receives an account, no later call whose time is within the
unexpired lock window (`t ≤ now + LEASE_TTL`) receives any account of that
username. -/
theorem C1_at_most_one_lease (db : List Account) (q : String) (now : Time)
    (a : Account) (db1 : List Account)
    (h : get_for_queue db q now = (some a, db1))
    (ts : List Time) (hts : ∀ t ∈ ts, t ≤ now + LEASE_TTL) :
    ∀ r ∈ run_leases q db1 ts, ∀ b, r = some b →
      uEq b.username a.username = false := by
  have hinv : lockedBeyond db1 a.username q (now + LEASE_TTL) := by
    unfold get_for_queue at h
    cases hs : selectEligible db q now with
    | none => rw [hs] at h; exact absurd h (by simp)
    | some a0 =>
      rw [hs] at h
      injection h with h1 h2
      have ha : lockAccount a0 q now = a := Option.some_inj.mp h1
      intro b hb hbu
      rw [← h2] at hb
      obtain ⟨c, hc, hcb⟩ := List.mem_map.mp hb
      by_cases hca : uEq c.username a0.username = true
      · rw [if_pos hca] at hcb
        subst hcb
        exact ⟨now + LEASE_TTL, jget_jset_self c.locks q (now + LEASE_TTL),
          le_refl _⟩
      · rw [if_neg hca] at hcb
        subst hcb
        have hcontra : uEq c.username a0.username = true := by
          rw [← ha] at hbu; exact hbu
        exact absurd hcontra hca
  exact run_leases_avoids q a.username (now + LEASE_TTL) ts db1 hinv hts

/-- Witness for C1 on a two-account store: the lease taken at time 200,
while the lock granted at time 100 is unexpired, returns the other
account. -/
theorem C1_at_most_one_lease_witness : uEq bW.username aW.username = false :=
  C1_at_most_one_lease dbW "q" 100 aW db1W (by decide) [200] (by decide)
    (some bW) (by decide) bW rfl

/-- C5: a leased account that is never released satisfies the eligibility
condition again at any time strictly past its stored lock timestamp
(`now + LEASE_TTL`), and `get_for_queue` on the post-lease store then
returns an account — the lease self-heals after TTL expiry. -/
theorem C5_lease_self_heals (db : List Account) (q : String) (now : Time)
    (a : Account) (db1 : List Account)
    (h : get_for_queue db q now = (some a, db1))
    (now2 : Time) (hpast : now + LEASE_TTL < now2) :
    eligible a q now2 = true ∧ ∃ b, (get_for_queue db1 q now2).1 = some b := by
  unfold get_for_queue at h
  cases hs : selectEligible db q now with
  | none => rw [hs] at h; exact absurd h (by simp)
  | some a0 =>
    rw [hs] at h
    injection h with h1 h2
    have ha : lockAccount a0 q now = a := Option.some_inj.mp h1
    obtain ⟨hmem, helig⟩ := selectEligible_mem hs
    have hboth : a0.active = true ∧ lockFree a0 q now = true := by
      simpa [eligible] using helig
    have hact : a0.active = true := hboth.1
    have hfree2 : lockFree (lockAccount a0 q now) q now2 = true := by
      unfold lockFree lockAccount
      rw [jget_jset_self]
      exact decide_eq_true hpast
    have helig2 : eligible a q now2 = true := by
      rw [← ha]
      unfold eligible
      rw [hfree2, lockAccount, hact]
      decide
    refine ⟨helig2, ?_⟩
    have hmem1 : a ∈ db1 := by
      rw [← h2]
      refine List.mem_map.mpr ⟨a0, hmem, ?_⟩
      rw [if_pos (uEq_refl a0.username)]
      exact ha
    cases hs2 : selectEligible db1 q now2 with
    | none =>
      have hfalse := (selectEligible_eq_none db1 q now2).mp hs2 a hmem1
      rw [helig2] at hfalse
      exact absurd hfalse (by decide)
    | some c =>
      exact ⟨lockAccount c q now2, by unfold get_for_queue; rw [hs2]⟩

/-- Witness for C5: the account leased at time 100 (lock 1000) is eligible
again at time 1001 and the store then hands out an account. -/
theorem C5_lease_self_heals_witness :
    eligible aW "q" 1001 = true ∧
    ∃ b, (get_for_queue db1W "q" 1001).1 = some b :=
  C5_lease_self_heals dbW "q" 100 aW db1W (by decide) 1001 (by decide)

/-- C4 (code bug): `reset_locks` is meant to clear every account's `locks`
to the empty object, but its SQL is a plain Python string, so the doubled
braces reach Postgres verbatim; that text is not valid jsonb (the empty
object written as two characters is), so every call raises `invalid input
syntax for type json` and no lock is cleared — shown here on a store with
one locked account. -/
theorem C4_reset_locks_raises :
    valid_jsonb_object "\x7b\x7d" = true ∧
    valid_jsonb_object reset_locks_literal = false ∧
    reset_locks [mkAcct "u1" true [("SearchTimeline", 100)]] =
      .error "invalid input syntax for type json" :=
  ⟨by decide, by decide, rfl⟩

/-- C6: with the fail-fast policy disabled and no active account in the
store, `get_for_queue_or_wait` returns `None` on its first iteration
(`next_available_at` finds no active account, so there is nothing to wait
for) instead of polling further. -/
theorem C6_no_active_returns_empty (db : List Account) (q : String)
    (now : Time) (fuel : Nat) (hf : 0 < fuel)
    (hact : ∀ a ∈ db, a.active = false) :
    get_for_queue_or_wait q false fuel db now = .empty := by
  obtain ⟨n, rfl⟩ : ∃ n, fuel = n + 1 :=
    ⟨fuel - 1, (Nat.succ_pred_eq_of_pos hf).symm⟩
  unfold get_for_queue_or_wait wait_loop
  have hel : ∀ a ∈ db, eligible a q now = false := by
    intro a ha
    unfold eligible
    rw [hact a ha]
    rfl
  have hs : selectEligible db q now = none :=
    (selectEligible_eq_none db q now).mpr hel
  have hg : (get_for_queue db q now).1 = none := by
    unfold get_for_queue
    rw [hs]
  rw [hg]
  have hn : next_available_at db q = none := by
    unfold next_available_at
    have hnil : db.filterMap (fun a => if a.active then jget a.locks q else none)
        = [] := by
      rw [List.filterMap_eq_nil_iff]
      intro a ha
      rw [hact a ha]
      rfl
    rw [hnil]
    rfl
  rw [hn]
  simp

/-- Witness for C6: a store holding one inactive account makes the waiting
lease return empty at once. -/
theorem C6_no_active_returns_empty_witness :
    get_for_queue_or_wait "q" false 3 [mkAcct "u3" false []] 50 = .empty :=
  C6_no_active_returns_empty [mkAcct "u3" false []] "q" 50 3 (by decide)
    (by decide)

/-- C7: adding a username that already exists — also one differing only in
letter case, since the `username` column is `CITEXT` — finds the existing
row, logs a warning and returns without touching the store: the table, the
original credentials and the session state are all unchanged, and no error
is raised (the function is total). -/
theorem C7_add_existing_is_noop (db : List Account)
    (u p e ep : String) (ua prox : Option String)
    (cookies : List (String × String)) (mfa : Option String) (uaGen : String)
    (a : Account) (ha : a ∈ db) (hu : uEq a.username u = true) :
    add_account db u p e ep ua prox cookies mfa uaGen = db := by
  unfold add_account
  cases hf : db.find? (fun b => uEq b.username u) with
  | some _ => rfl
  | none =>
    have hnone := List.find?_eq_none.mp hf a ha
    rw [hu] at hnone
    exact absurd rfl hnone

/-- Witness for C7: re-adding `user` as `USER` (different case, same
`CITEXT` key) leaves the one-row store exactly as it was. -/
theorem C7_add_existing_is_noop_witness :
    add_account [mkAcct "user" true []] "USER" "x" "y" "z" none none [] none
      "ua2" = [mkAcct "user" true []] :=
  C7_add_existing_is_noop [mkAcct "user" true []] "USER" "x" "y" "z" none none
    [] none "ua2" (mkAcct "user" true []) (by decide) (by decide)

theorem zip_map_self {α β : Type} (f : α → β) :
    ∀ l : List α, l.zip (l.map f) = l.map (fun a => (a, f a)) := by
  intro l
  induction l with
  | nil => rfl
  | cons a rest ih => simp [ih]

/-- C8: `lock_until(username, queue, unlock_at, req_count)` sets the
matching account's `locks[queue]` to the unlock time, adds the delta to
`stats[queue]` (an absent key counting as `0` via `COALESCE`), and stamps
`last_used`, while every other key of `locks` and `stats`, every other
field of the account, and every other account are unchanged. -/
theorem C8_lock_until_frame (db : List Account) (u q : String) (ua : Time)
    (rc : Nat) (now : Time) :
    (lock_until db u q ua rc now).length = db.length ∧
    ∀ pr ∈ db.zip (lock_until db u q ua rc now),
      (uEq pr.1.username u = false → pr.2 = pr.1) ∧
      (uEq pr.1.username u = true →
        jget pr.2.locks q = some ua ∧
        jget pr.2.stats q = some ((jget pr.1.stats q).getD 0 + rc) ∧
        pr.2.last_used = some now ∧
        (∀ k, k ≠ q → jget pr.2.locks k = jget pr.1.locks k) ∧
        (∀ k, k ≠ q → jget pr.2.stats k = jget pr.1.stats k) ∧
        pr.2.username = pr.1.username ∧
        pr.2.password = pr.1.password ∧
        pr.2.email = pr.1.email ∧
        pr.2.email_password = pr.1.email_password ∧
        pr.2.user_agent = pr.1.user_agent ∧
        pr.2.active = pr.1.active ∧
        pr.2.headers = pr.1.headers ∧
        pr.2.cookies = pr.1.cookies ∧
        pr.2.mfa_code = pr.1.mfa_code ∧
        pr.2.proxy = pr.1.proxy ∧
        pr.2.proxy_id = pr.1.proxy_id ∧
        pr.2.error_msg = pr.1.error_msg ∧
        pr.2.tx = pr.1.tx) := by
  constructor
  · simp [lock_until]
  · intro pr hpr
    unfold lock_until at hpr
    rw [zip_map_self] at hpr
    obtain ⟨a, ha, rfl⟩ := List.mem_map.mp hpr
    constructor
    · intro hfu
      show (if uEq a.username u = true then _ else a) = a
      rw [if_neg (by rw [hfu]; exact Bool.false_ne_true)]
    · intro htu
      show _ ∧ _
      rw [show (if uEq a.username u = true then
            { a with
              locks := jset a.locks q ua
              stats := jset a.stats q ((jget a.stats q).getD 0 + rc)
              last_used := some now }
          else a) =
            { a with
              locks := jset a.locks q ua
              stats := jset a.stats q ((jget a.stats q).getD 0 + rc)
              last_used := some now } from if_pos htu]
      exact ⟨jget_jset_self a.locks q ua,
        jget_jset_self a.stats q ((jget a.stats q).getD 0 + rc), rfl,
        fun k hk => jget_jset_ne a.locks q k ua hk,
        fun k hk => jget_jset_ne a.stats q k _ hk,
        rfl, rfl, rfl, rfl, rfl, rfl, rfl, rfl, rfl, rfl, rfl, rfl, rfl⟩

theorem lockFree_of_jget_none {a : Account} {q : String}
    (h : jget a.locks q = none) : ∀ t, lockFree a q t = true := by
  intro t
  unfold lockFree
  rw [h]

theorem eligible_of_active_free {a : Account} {q : String} {t : Time}
    (hact : a.active = true) (hfree : lockFree a q t = true) :
    eligible a q t = true := by
  unfold eligible
  rw [hact, hfree]
  rfl

theorem unlock_eq_map (db : List Account) (u q : String) (rc : Nat)
    (now : Time) :
    unlock db u q rc now = db.map (fun a =>
      if uEq a.username u = true then
        { a with
          locks := jdel a.locks q
          stats := if 0 < rc then
              jset a.stats q ((jget a.stats q).getD 0 + rc)
            else a.stats
          last_used := some now }
      else a) := by
  unfold unlock unlock_step1 unlock_step2
  by_cases hrc : rc > 0
  · rw [if_pos hrc, List.map_map]
    apply List.map_congr_left
    intro a _
    by_cases hu : uEq a.username u = true
    · simp [hu, hrc]
    · simp [hu]
  · rw [if_neg hrc]
    apply List.map_congr_left
    intro a _
    by_cases hu : uEq a.username u = true
    · simp [hu, hrc]
    · simp [hu]

/-- C9: `unlock(username, queue, req_count)` has the effect the spec
ascribes to `release(username, queue, now, req_count)` — afterwards the
matching account holds no lock for the queue (so it is lock-free at every
time, in particular immediately leasable, and eligible whenever it is
active), its `stats[queue]` (absent key counting as `0`) has grown by
exactly the delta, and `last_used` is stamped — while non-matching
accounts are unchanged. -/
theorem C9_unlock_effects (db : List Account) (u q : String) (rc : Nat)
    (now : Time) :
    (unlock db u q rc now).length = db.length ∧
    ∀ pr ∈ db.zip (unlock db u q rc now),
      (uEq pr.1.username u = false → pr.2 = pr.1) ∧
      (uEq pr.1.username u = true →
        jget pr.2.locks q = none ∧
        (∀ t, lockFree pr.2 q t = true) ∧
        (pr.1.active = true → ∀ t, eligible pr.2 q t = true) ∧
        (jget pr.2.stats q).getD 0 = (jget pr.1.stats q).getD 0 + rc ∧
        pr.2.last_used = some now) := by
  rw [unlock_eq_map]
  constructor
  · simp
  · rw [zip_map_self]
    intro pr hpr
    obtain ⟨a, ha, rfl⟩ := List.mem_map.mp hpr
    constructor
    · intro hfu
      show (if uEq a.username u = true then _ else a) = a
      rw [if_neg (by rw [hfu]; exact Bool.false_ne_true)]
    · intro htu
      show _ ∧ _
      rw [if_pos htu]
      have hlocks : jget (jdel a.locks q) q = none := jget_jdel_self a.locks q
      refine ⟨hlocks, lockFree_of_jget_none hlocks, ?_, ?_, rfl⟩
      · intro hact t
        exact eligible_of_active_free hact (lockFree_of_jget_none hlocks t)
      · by_cases hrc : 0 < rc
        · rw [if_pos hrc, jget_jset_self]
          rfl
        · rw [if_neg hrc]
          have : rc = 0 := Nat.eq_zero_of_not_pos hrc
          rw [this, Nat.add_zero]

/-- C10: looking up a username absent from the store (no `CITEXT` match),
`get` raises `ValueError` while `get_account` returns `None`; and whenever
`get_account` finds a stored row, `get` returns that same row. -/
theorem C10_get_vs_get_account (db : List Account) (u : String) :
    ((∀ a ∈ db, uEq a.username u = false) →
      AccountsPool.get db u = .error ("Account " ++ u ++ " not found") ∧
      AccountsPool.get_account db u = none) ∧
    (∀ a, AccountsPool.get_account db u = some a →
      AccountsPool.get db u = .ok a) := by
  constructor
  · intro habs
    have hf : db.find? (fun a => uEq a.username u) = none := by
      rw [List.find?_eq_none]
      intro a ha
      rw [habs a ha]
      exact Bool.false_ne_true
    constructor
    · unfold AccountsPool.get
      rw [hf]
    · unfold AccountsPool.get_account
      exact hf
  · intro a hsome
    unfold AccountsPool.get_account at hsome
    unfold AccountsPool.get
    rw [hsome]

theorem mark_failed_keeps_other (ps : List ProxyRow) (pid : Nat) (ts : Time) :
    ∀ p ∈ ps, p.id ≠ pid → p ∈ mark_failed ps pid ts := by
  intro p hp hne
  unfold mark_failed
  refine List.mem_map.mpr ⟨p, hp, ?_⟩
  rw [if_neg hne]

theorem mark_failed_mem_src (ps : List ProxyRow) (pid : Nat) (ts : Time) :
    ∀ p ∈ mark_failed ps pid ts, p.id ≠ pid → p ∈ ps := by
  intro p hp hne
  unfold mark_failed at hp
  obtain ⟨c, hc, hcp⟩ := List.mem_map.mp hp
  by_cases hcid : c.id = pid
  · rw [if_pos hcid] at hcp
    have hpid : p.id = pid := by rw [← hcp]; exact hcid
    exact absurd hpid hne
  · rw [if_neg hcid] at hcp
    exact hcp ▸ hc

theorem mark_failed_id_inactive (ps : List ProxyRow) (pid : Nat) (ts : Time) :
    ∀ p ∈ mark_failed ps pid ts, p.id = pid → p.active = false := by
  intro p hp hid
  unfold mark_failed at hp
  obtain ⟨c, hc, hcp⟩ := List.mem_map.mp hp
  by_cases hcid : c.id = pid
  · rw [← hcp, if_pos hcid]
  · rw [if_neg hcid] at hcp
    exact absurd (by rw [hcp]; exact hid) hcid

theorem get_active_spec {ps : List ProxyRow} {pid : Nat} {url : String}
    (h : get_active ps = some (pid, url)) :
    ∃ p ∈ ps, p.id = pid ∧ p.url = url ∧ p.active = true := by
  unfold get_active at h
  obtain ⟨p, hfind, hmap⟩ := Option.map_eq_some'.mp h
  exact ⟨p, List.mem_of_find?_eq_some hfind, congrArg Prod.fst hmap,
    congrArg Prod.snd hmap, List.find?_some hfind⟩

theorem get_active_isSome {ps : List ProxyRow} {p : ProxyRow}
    (hp : p ∈ ps) (ha : p.active = true) :
    ∃ pr, get_active ps = some pr := by
  unfold get_active
  cases hf : ps.find? (fun p => p.active) with
  | none => exact absurd ha (List.find?_eq_none.mp hf p hp)
  | some c => exact ⟨(c.id, c.url), rfl⟩

/-- C3: on a proxy-level failure of the first transport attempt, with at
least two active proxies of distinct ids and an account with no fixed
proxy, the Queue Client marks the failed proxy inactive (`mark_failed` of
`proxies.py`), retries exactly once through a different, still-active
proxy, persists the new `proxy_id` onto the account, and the overall call
returns the retry's successful response.  The Queue Client wrapper itself
is modelled from the spec (`execute_with_rotation`), its module not being
part of the sources. -/
theorem C3_proxy_rotation (ps : List ProxyRow) (acc : Account)
    (attempt : String → AttemptOutcome) (now : Time) (payload : String)
    (p1 p2 : ProxyRow) (hp1 : p1 ∈ ps) (hp2 : p2 ∈ ps)
    (ha1 : p1.active = true) (ha2 : p2.active = true)
    (hids : p1.id ≠ p2.id) (hacc : acc.proxy_id = none)
    (pid0 : Nat) (url0 : String)
    (hga : get_active ps = some (pid0, url0))
    (hfail : attempt url0 = .proxyError)
    (hok : ∀ p ∈ ps, p.id ≠ pid0 → attempt p.url = .success payload) :
    ∃ pid2 url2,
      get_active (mark_failed ps pid0 now) = some (pid2, url2) ∧
      pid2 ≠ pid0 ∧
      (∀ p ∈ mark_failed ps pid0 now, p.id = pid0 → p.active = false) ∧
      (∃ p ∈ mark_failed ps pid0 now, p.id = pid2 ∧ p.active = true) ∧
      execute_with_rotation ps acc attempt now =
        some (payload, mark_failed ps pid0 now,
          { acc with proxy_id := some pid2 }) := by
  have hsurv : ∃ p ∈ mark_failed ps pid0 now, p.active = true := by
    by_cases h1 : p1.id = pid0
    · have h2 : p2.id ≠ pid0 := by rw [← h1]; exact fun x => hids x.symm
      exact ⟨p2, mark_failed_keeps_other ps pid0 now p2 hp2 h2, ha2⟩
    · exact ⟨p1, mark_failed_keeps_other ps pid0 now p1 hp1 h1, ha1⟩
  obtain ⟨s, hsmem, hsact⟩ := hsurv
  obtain ⟨pr2, hga2⟩ := get_active_isSome hsmem hsact
  obtain ⟨pid2v, url2v⟩ := pr2
  obtain ⟨pf, hpfmem, hpfid, hpfurl, hpfact⟩ := get_active_spec hga2
  have hpid2 : pid2v ≠ pid0 := by
    intro heq
    have hin := mark_failed_id_inactive ps pid0 now pf hpfmem (by rw [hpfid, heq])
    rw [hin] at hpfact
    exact absurd hpfact (by decide)
  have hpfsrc : pf ∈ ps :=
    mark_failed_mem_src ps pid0 now pf hpfmem (by rw [hpfid]; exact hpid2)
  have hatt2 : attempt url2v = .success payload := by
    rw [← hpfurl]
    exact hok pf hpfsrc (by rw [hpfid]; exact hpid2)
  refine ⟨pid2v, url2v, hga2, hpid2, mark_failed_id_inactive ps pid0 now,
    ⟨pf, hpfmem, hpfid, hpfact⟩, ?_⟩
  simp only [execute_with_rotation, hacc, hga, hfail, hga2, hatt2]

/-- Witness for C3 on the three-proxy table of the repository's rotation
test: the bad proxy fails, is marked inactive, and the call succeeds
through another active proxy that becomes the account's `proxy_id`. -/
theorem C3_proxy_rotation_witness :
    ∃ pid2 url2,
      get_active (mark_failed psW 1 777) = some (pid2, url2) ∧
      pid2 ≠ 1 ∧
      (∀ p ∈ mark_failed psW 1 777, p.id = 1 → p.active = false) ∧
      (∃ p ∈ mark_failed psW 1 777, p.id = pid2 ∧ p.active = true) ∧
      execute_with_rotation psW (mkAcct "user" true []) attemptW 777 =
        some ("ok", mark_failed psW 1 777,
          { mkAcct "user" true [] with proxy_id := some pid2 }) :=
  C3_proxy_rotation psW (mkAcct "user" true []) attemptW 777 "ok"
    { id := 1, url := "http://bad:8888", active := true, fail_count := 0,
      last_failed := none }
    { id := 2, url := "http://working:8888", active := true, fail_count := 0,
      last_failed := none }
    (by decide) (by decide) (by decide) (by decide) (by decide) (by decide)
    1 "http://bad:8888" (by decide) (by decide) (by decide)
